import Mathlib

/-
Formal model of the extraction / parsing / scoring pipeline of the
mock-exam application (src/app.py).

Text is modelled as `List Char`.  The Python regular expressions used by
the source are modelled by explicit character-scanning functions whose
behaviour (including the greedy/backtracking semantics of the concrete
patterns involved) is reproduced faithfully.  Functions whose recursion
is not structural are implemented with an explicit fuel argument equal to
the length of the input, which is always sufficient because every
recursive step consumes at least one character.
-/

namespace MockExam

/-- Python whitespace class for ASCII text (`\s` and `str.strip`). -/
def isSpaceChar (c : Char) : Bool :=
  c == ' ' || c == '\t' || c == '\n' || c == '\r' || c == '\x0b' || c == '\x0c'

/-- Model of Python `str.strip()`: drop whitespace from both ends. -/
def pyStripL (s : List Char) : List Char :=
  ((s.dropWhile isSpaceChar).reverse.dropWhile isSpaceChar).reverse

/-- Model of Python `str.split('\n')`. -/
def splitOnNl : List Char → List (List Char)
  | [] => [[]]
  | c :: rest =>
    if c == '\n' then [] :: splitOnNl rest
    else
      match splitOnNl rest with
      | l :: ls => (c :: l) :: ls
      | [] => [[c]]

/-- Model of Python `' '.join(...)`. -/
def joinSpace : List (List Char) → List Char
  | [] => []
  | [l] => l
  | l :: ls => l ++ ' ' :: joinSpace ls

/-- Model of Python `'sep'.join(...)` for an arbitrary separator. -/
def joinWith (sep : List Char) : List (List Char) → List Char
  | [] => []
  | [l] => l
  | l :: ls => l ++ sep ++ joinWith sep ls

/-- Lowercasing of a text, one character at a time (Python `str.lower()`). -/
def lowerL (s : List Char) : List Char := s.map Char.toLower

/-- Uppercasing of a text, one character at a time (Python `str.upper()`). -/
def upperL (s : List Char) : List Char := s.map Char.toUpper

/-- Exact match of `p` against the front of `l`. -/
def startsWithL : List Char → List Char → Bool
  | [], _ => true
  | _ :: _, [] => false
  | a :: as, b :: bs => a == b && startsWithL as bs

/-- Substring test (Python `needle in hay`). -/
def subStrL (needle : List Char) : List Char → Bool
  | [] => startsWithL needle []
  | c :: rest => startsWithL needle (c :: rest) || subStrL needle rest

/-! ### Question parser (`parse_mcqs_from_column_text`) -/

/-- Matching of the regex fragment `\d{1,3}[\.)]` at the head of the text:
a run of one to three digits immediately followed by a period or a closing
parenthesis.  A run of four or more digits never matches because the
character after the consumed digits would again be a digit. -/
def matchNumDelim (cs : List Char) : Bool :=
  let ds := cs.takeWhile Char.isDigit
  decide (1 ≤ ds.length) && decide (ds.length ≤ 3) &&
    (match cs.drop ds.length with
     | c :: _ => c == '.' || c == ')'
     | [] => false)

/-- Lookahead `(?=(?:Q\.?\s*)?\d{1,3}[\.)])` of the question-splitting
regex in `parse_mcqs_from_column_text`: an optional literal `Q` (this
pattern is case sensitive), an optional period, optional whitespace, then
a 1-3 digit number and a delimiter. -/
def lookQnum (cs : List Char) : Bool :=
  match cs with
  | 'Q' :: rest =>
    let r1 := match rest with
      | '.' :: r => r
      | _ => rest
    matchNumDelim (r1.dropWhile isSpaceChar)
  | _ => matchNumDelim cs

/-- Fueled scanner for `re.split(r"\n\s*(?=(?:Q\.?\s*)?\d{1,3}[\.)])", text)`:
the separator is a newline followed by greedily-consumed whitespace at a
position where the lookahead succeeds. -/
def splitQScanF : Nat → List Char → List Char → List (List Char)
  | 0, acc, rest => [acc.reverse ++ rest]
  | _ + 1, acc, [] => [acc.reverse]
  | f + 1, acc, c :: rest =>
    if c == '\n' then
      let after := rest.dropWhile isSpaceChar
      if lookQnum after then acc.reverse :: splitQScanF f [] after
      else splitQScanF f (c :: acc) rest
    else splitQScanF f (c :: acc) rest

/-- Splitting of a block at question starts (line 81 of src/app.py). -/
def splitQuestions (t : List Char) : List (List Char) :=
  splitQScanF t.length [] t

/-- Model of `re.sub(r'^(Q\.?\s*)', '', p, flags=re.IGNORECASE)`: strip a
leading `Q` or `q`, an optional period and any following whitespace. -/
def stripQ (cs : List Char) : List Char :=
  match cs with
  | c :: rest =>
    if c == 'Q' || c == 'q' then
      let r1 := match rest with
        | '.' :: r => r
        | _ => rest
      r1.dropWhile isSpaceChar
    else c :: rest
  | [] => []

/-- Model of `re.match(r"^(\d{1,3})[\.)]\s*(.*)$", p_clean, re.DOTALL)`:
on success, the captured question number and the remainder after the
delimiter and any whitespace. -/
def matchQnumBody (cs : List Char) : Option (List Char × List Char) :=
  let ds := cs.takeWhile Char.isDigit
  if 1 ≤ ds.length ∧ ds.length ≤ 3 then
    match cs.drop ds.length with
    | c :: rest =>
      if c == '.' || c == ')' then some (ds, rest.dropWhile isSpaceChar)
      else none
    | [] => none
  else none

/-- Character class `[a-dA-D]|[1-4]` of the option-line regexes. -/
def isOptLabel (c : Char) : Bool :=
  ('a' ≤ c && c ≤ 'd') || ('A' ≤ c && c ≤ 'D') || ('1' ≤ c && c ≤ '4')

/-- Normalisation of an option label performed in the option loop:
uppercase, with digits `1`-`4` mapped to `A`-`D`. -/
def labelNorm (c : Char) : Char :=
  if c == '1' then 'A'
  else if c == '2' then 'B'
  else if c == '3' then 'C'
  else if c == '4' then 'D'
  else c.toUpper

/-- Model of `re.match(r'^[\s]*([a-dA-D]|[1-4])[\.\)]\s+(.*)$', ln)`:
optional leading whitespace, a label, a delimiter and at least one
whitespace character; the returned text is the stripped remainder, which
is exactly what the source stores (`mopt.group(2).strip()`).  The same
success condition also models the detection regex
`re.match(r'^[\s]*([a-dA-D]|[1-4])[\.\)]\s+', ln)`. -/
def matchOptLine (cs : List Char) : Option (Char × List Char) :=
  match cs.dropWhile isSpaceChar with
  | c :: d :: rest =>
    if isOptLabel c && (d == '.' || d == ')') then
      match rest with
      | r :: _ => if isSpaceChar r then some (c, pyStripL rest) else none
      | [] => none
    else none
  | _ => none

/-- Non-empty lines of a body (`[ln for ln in body.split('\n') if ln.strip()]`);
the original lines are kept, only the filter uses the stripped form. -/
def linesOf (body : List Char) : List (List Char) :=
  (splitOnNl body).filter (fun l => !(pyStripL l).isEmpty)

/-- Splitting of the line list at the first option-start line: the result
is the pair of the lines before it and the lines from it on, or `none`
when no line matches (this models `option_line_idx`). -/
def findOptSplit : List (List Char) → Option (List (List Char) × List (List Char))
  | [] => none
  | ln :: rest =>
    if (matchOptLine ln).isSome then some ([], ln :: rest)
    else
      match findOptSplit rest with
      | some (b, a) => some (ln :: b, a)
      | none => none

/-- Appending of a continuation line to the text of the last collected
option (`opts[-1] = (opts[-1][0], opts[-1][1] + ' ' + ln.strip())`). -/
def appendToLast (opts : List (Char × List Char)) (ln : List Char) :
    List (Char × List Char) :=
  match opts with
  | [] => []
  | [o] => [(o.1, o.2 ++ ' ' :: pyStripL ln)]
  | o :: rest => o :: appendToLast rest ln

/-- Option-collecting loop over `lines[option_line_idx:]`: a matching line
starts a new option with a normalised label; a non-matching line is glued
to the previous option, or to the question text when no option exists yet. -/
def collectOpts (qt : List Char) (opts : List (Char × List Char)) :
    List (List Char) → List Char × List (Char × List Char)
  | [] => (qt, opts)
  | ln :: rest =>
    match matchOptLine ln with
    | some (lab, txt) => collectOpts qt (opts ++ [(labelNorm lab, txt)]) rest
    | none =>
      if opts.isEmpty then collectOpts (qt ++ ' ' :: pyStripL ln) opts rest
      else collectOpts qt (appendToLast opts ln) rest

/-- Character class `[^;\\n]` of the inline-option regex.  In the source
the pattern is written inside a raw string as `[^;\\n]`, so the excluded
characters are the semicolon, the backslash and the letter `n` (not the
newline character). -/
def inlineTextOk (c : Char) : Bool :=
  !(c == ';' || c == '\\' || c == 'n')

/-- Tail of the inline pattern after the mandatory delimiter:
`\s*([^;\\n]+)`, greedy whitespace followed by a non-empty text.  When the
greedy whitespace leaves no admissible text character, the engine
backtracks one whitespace character (every whitespace character is
admissible for the text class), producing a one-character text.  Returns
the label, the raw captured text and the remainder of the input after the
match. -/
def inlineTail (c : Char) (r1 : List Char) : Option (Char × List Char × List Char) :=
  let ws := r1.takeWhile isSpaceChar
  let rem := r1.drop ws.length
  let t1 := rem.takeWhile inlineTextOk
  if t1.isEmpty then
    match ws.reverse with
    | w :: _ => some (c, [w], rem)
    | [] => none
  else some (c, t1, rem.drop t1.length)

/-- Matching of `([a-dA-D])\)?[\.\)]\s*([^;\\n]+)` from the label onwards:
label, optional closing parenthesis, mandatory delimiter, then the tail.
The engine first lets `\)?` consume a closing parenthesis and `[\.\)]` a
following period or parenthesis; when either the delimiter or the tail
then fails, it backtracks `\)?` to the empty string so that the closing
parenthesis itself serves as the `[\.\)]` delimiter, and the tail is
retried right after it.  In the retry after a consumed second delimiter
the tail always succeeds, since the text then starts at that period or
parenthesis, an admissible text character. -/
def tryInlineCore (cs : List Char) : Option (Char × List Char × List Char) :=
  match cs with
  | c :: rest =>
    if ('a' ≤ c && c ≤ 'd') || ('A' ≤ c && c ≤ 'D') then
      match rest with
      | ')' :: rest2 =>
        match rest2 with
        | e :: rest3 =>
          if e == '.' || e == ')' then
            match inlineTail c rest3 with
            | some m => some m
            | none => inlineTail c rest2
          else inlineTail c rest2
        | [] => inlineTail c rest2
      | '.' :: rest2 => inlineTail c rest2
      | _ => none
    else none
  | [] => none

/-- Matching of the full inline pattern `\(?([a-dA-D])\)?[\.\)]\s*([^;\\n]+)`
at the head of the text: when the first character is an opening
parenthesis it must be consumed (a parenthesis can never match the label
that an empty `\(?` would require next). -/
def tryInline (cs : List Char) : Option (Char × List Char × List Char) :=
  match cs with
  | '(' :: rest => tryInlineCore rest
  | _ => tryInlineCore cs

/-- Fueled scanner for
`re.findall(r'\(?([a-dA-D])\)?[\.\)]\s*([^;\\n]+)', body)`. -/
def inlineFindF : Nat → List Char → List (Char × List Char)
  | 0, _ => []
  | _ + 1, [] => []
  | f + 1, c :: rest =>
    match tryInline (c :: rest) with
    | some (lab, txt, r) => (lab, txt) :: inlineFindF f r
    | none => inlineFindF f rest

/-- All inline option matches of a body, in order. -/
def inlineFind (body : List Char) : List (Char × List Char) :=
  inlineFindF body.length body

/-- Existence of a match of `\(?[a-dA-D]\)?[\.\)]` at the head of the
text (the pattern used with `re.split(..., maxsplit=1)` to recover the
question text of the inline branch).  A match needs a label (after an
optional opening parenthesis) followed by a period or closing parenthesis;
when the character after the label is a closing parenthesis the pattern
always succeeds, either as `\)?` plus a further delimiter or with the
parenthesis itself serving as the `[\.\)]` delimiter. -/
def trySplitPat (cs : List Char) : Bool :=
  match cs with
  | '(' :: c :: d :: _ => isInlineLabel c && (d == '.' || d == ')')
  | c :: d :: _ => isInlineLabel c && (d == '.' || d == ')')
  | _ => false
where
  isInlineLabel (c : Char) : Bool := ('a' ≤ c && c ≤ 'd') || ('A' ≤ c && c ≤ 'D')

/-- Text before the first match of the inline split pattern (the whole
text when there is no match), modelling `first_split[0]`. -/
def inlineSplitHead : List Char → List Char
  | [] => []
  | c :: rest =>
    if trySplitPat (c :: rest) then []
    else c :: inlineSplitHead rest

/-- Inline fallback branch of the parser: when at least two inline
matches exist, the question text is the stripped text before the first
split-pattern match and the options are the uppercased labels with
stripped texts; otherwise the whole body is the question text and there
are no options. -/
def inlineBranch (body : List Char) : List Char × List (Char × List Char) :=
  let iopts := inlineFind body
  if 2 ≤ iopts.length then
    (pyStripL (inlineSplitHead body),
     iopts.map (fun p => (p.1.toUpper, pyStripL p.2)))
  else (body, [])

/-- Body parsing: either the line-based option scan (when some line is an
option-start line) or the inline fallback. -/
def parseBody (body : List Char) : List Char × List (Char × List Char) :=
  match findOptSplit (linesOf body) with
  | some (before, after) => collectOpts (pyStripL (joinSpace before)) [] after
  | none => inlineBranch body

/-- Sort key of an option pair:
`'ABCD'.index(x[0]) if x and x[0] in 'ABCD' else 99`. -/
def optKey (p : Char × List Char) : Nat :=
  if p.1 == 'A' then 0
  else if p.1 == 'B' then 1
  else if p.1 == 'C' then 2
  else if p.1 == 'D' then 3
  else 99

/-- Stable insertion of an element after every element of smaller or
equal key. -/
def insStable (x : Char × List Char) : List (Char × List Char) → List (Char × List Char)
  | [] => [x]
  | y :: ys => if optKey y ≤ optKey x then y :: insStable x ys else x :: y :: ys

/-- Stable sort by `optKey`, modelling Python `sorted(opts, key=...)`. -/
def sortOpts (l : List (Char × List Char)) : List (Char × List Char) :=
  l.foldl (fun acc x => insStable x acc) []

/-- A parsed question record (`{'qnum', 'question', 'options'}`). -/
structure QuestionRec where
  qnum : List Char
  question : List Char
  options : List (List Char)
deriving DecidableEq, Repr

/-- Body of a candidate segment: the stripped remainder after the leading
marker, number and delimiter (what the source calls `body`). -/
def bodyOfPart (p : List Char) : List Char :=
  match matchQnumBody (stripQ (pyStripL p)) with
  | some (_, rawBody) => pyStripL rawBody
  | none => []

/-- Parsing of one candidate segment into a question record; `none` for a
segment that is empty after stripping or has no recognisable leading
number. -/
def parsePart (p : List Char) : Option QuestionRec :=
  let p1 := pyStripL p
  if p1.isEmpty then none
  else
    match matchQnumBody (stripQ p1) with
    | none => none
    | some (ds, rawBody) =>
      let body := pyStripL rawBody
      let (qt, opts) := parseBody body
      some ⟨ds, qt, (sortOpts opts).map (fun o => o.2)⟩

/-- Model of `parse_mcqs_from_column_text`. -/
def parse_mcqs_from_column_text (text : List Char) : List QuestionRec :=
  if text.isEmpty then []
  else
    let t := text.map (fun c => if c == '\r' then '\n' else c)
    (splitQuestions t).filterMap parsePart

/-! ### Column aggregation (`parse_all_columns_to_questions`) -/

/-- Fueled scanner for `re.split(r'\n\s*\n\s*\n', full_text)`.  The
pattern matches at a newline whose maximal whitespace run contains at
least three newlines; under the greedy backtracking order of the two
`\s*` groups the match extends exactly to the last newline of that run. -/
def splitTripleF : Nat → List Char → List Char → List (List Char)
  | 0, acc, rest => [acc.reverse ++ rest]
  | _ + 1, acc, [] => [acc.reverse]
  | f + 1, acc, c :: rest =>
    if c == '\n' then
      let ws := (c :: rest).takeWhile isSpaceChar
      if 3 ≤ ws.count '\n' then
        let afterWs := (c :: rest).dropWhile isSpaceChar
        let trailing := (ws.reverse.takeWhile (fun ch => ch != '\n')).reverse
        acc.reverse :: splitTripleF f [] (trailing ++ afterWs)
      else splitTripleF f (c :: acc) rest
    else splitTripleF f (c :: acc) rest

/-- Splitting of the full text at triple-newline gaps. -/
def splitTripleNl (t : List Char) : List (List Char) :=
  splitTripleF t.length [] t

/-- Model of Python `str.split('\n\n')` (literal, non-regex split). -/
def splitOn2Nl : List Char → List (List Char)
  | '\n' :: '\n' :: rest => [] :: splitOn2Nl rest
  | c :: rest =>
    match splitOn2Nl rest with
    | l :: ls => (c :: l) :: ls
    | [] => [[c]]
  | [] => [[]]

/-- Column loop of `parse_all_columns_to_questions`: parse each stripped
non-empty column, appending question records; as soon as 100 records are
reached the first 100 are returned, and at the end the result is capped
at 100. -/
def parse_all_loop : List QuestionRec → List (List Char) → List QuestionRec
  | acc, [] => acc.take 100
  | acc, c :: cs =>
    let ct := pyStripL c
    if ct.isEmpty then parse_all_loop acc cs
    else
      let merged := acc ++ parse_mcqs_from_column_text ct
      if 100 ≤ merged.length then merged.take 100
      else parse_all_loop merged cs

/-- Model of `parse_all_columns_to_questions`. -/
def parse_all_columns_to_questions (full_text : List Char) : List QuestionRec :=
  if full_text.isEmpty then []
  else
    let cols := splitTripleNl full_text
    let column_texts := if cols.length == 1 then splitOn2Nl full_text else cols
    parse_all_loop [] column_texts

/-! ### Page text source and language/column segmenter -/

/-- Abstraction of a PDF page: the text extracted from the whole page and
the texts extracted from the left-half and right-half crops (an extraction
that fails or yields nothing is the empty text, exactly as in the source
where `extract_text()` failures are caught and mapped to `""`). -/
structure PdfPage where
  rawText : List Char
  leftText : List Char
  rightText : List Char
deriving DecidableEq, Repr

/-- Message produced by `st.error(f"Error opening PDF: {e}")`. -/
def openErrorMessage (e : List Char) : List Char :=
  ("Error opening PDF: ").toList ++ e

/-- Model of `extract_pages_text`: the document handle either opens and
yields its page list, or fails with an exception value.  The result is
the page list together with the user-visible error messages emitted; a
failure is caught, reported, and produces the empty page sequence. -/
def extract_pages_text (doc : Except (List Char) (List PdfPage)) :
    List PdfPage × List (List Char) :=
  match doc with
  | .ok ps => (ps, [])
  | .error e => ([], [openErrorMessage e])

/-- Model of Python `range(start, stop, 2)`. -/
def rangeBy2 (start stop : Nat) : List Nat :=
  (List.range ((stop - start + 1) / 2)).map (fun i => start + 2 * i)

/-- Page-selection and column-splitting loop of
`extract_english_columns_text`: pages at indices `start, start+2, ...`
are kept (with `start = 1` when the first page is Hindi, `0` otherwise);
each kept page contributes its stripped left-half text and then its
stripped right-half text, empty halves being omitted. -/
def english_columns_blocks (pages : List PdfPage) (first_page_hindi : Bool) :
    List (List Char) :=
  if pages.isEmpty then []
  else
    (rangeBy2 (if first_page_hindi then 1 else 0) pages.length).flatMap (fun i =>
      let page := pages.getD i ⟨[], [], []⟩
      let left_text := pyStripL page.leftText
      let right_text := pyStripL page.rightText
      (if left_text.isEmpty then [] else [left_text]) ++
        (if right_text.isEmpty then [] else [right_text]))

/-- Model of `extract_english_columns_text`: the selected column texts
joined by blank lines. -/
def extract_english_columns_text (pages : List PdfPage) (first_page_hindi : Bool) :
    List Char :=
  joinWith ['\n', '\n'] (english_columns_blocks pages first_page_hindi)

/-! ### Answer key parser: final low-confidence pass -/

/-- Character class `[a-dA-D]` of the answer-letter patterns. -/
def isKeyLetter (c : Char) : Bool :=
  ('a' ≤ c && c ≤ 'd') || ('A' ≤ c && c ≤ 'D')

/-- Fueled scanner for `re.findall(r'(\d{1,3})[\)\.]\s*([a-dA-D])', text)`:
at each position, a run of at most three digits followed by a delimiter,
optional whitespace and an answer letter matches (a longer digit run
fails at that position, so scanning resumes one character later, inside
the run). -/
def keyScanF : Nat → List Char → List (List Char × Char)
  | 0, _ => []
  | _ + 1, [] => []
  | f + 1, c :: rest =>
    if c.isDigit then
      let ds := (c :: rest).takeWhile Char.isDigit
      if ds.length ≤ 3 then
        match (c :: rest).drop ds.length with
        | d :: r2 =>
          if d == ')' || d == '.' then
            match r2.dropWhile isSpaceChar with
            | a :: r4 =>
              if isKeyLetter a then (ds, a) :: keyScanF f r4
              else keyScanF f rest
            | [] => keyScanF f rest
          else keyScanF f rest
        | [] => keyScanF f rest
      else keyScanF f rest
    else keyScanF f rest

/-- All matches of the low-confidence `number + delimiter + letter`
pattern, in text order. -/
def keyScan (t : List Char) : List (List Char × Char) :=
  keyScanF t.length t

/-- Lookup in a Python-dict model (association list with unique keys,
insertion order preserved). -/
def dictGet (d : List (List Char × List Char)) (k : List Char) :
    Option (List Char) :=
  (d.find? (fun p => p.1 == k)).map (fun p => p.2)

/-- Assignment in a Python-dict model: overwrite in place when the key is
present, append otherwise. -/
def dictSet : List (List Char × List Char) → List Char → List Char →
    List (List Char × List Char)
  | [], k, v => [(k, v)]
  | (k', v') :: rest, k, v =>
    if k' == k then (k, v) :: rest else (k', v') :: dictSet rest k v

/-- Final low-confidence pass of `parse_answer_key_from_solution_pdf`
(source lines 203-207): every `number + delimiter + letter` match found
anywhere in the text is stored, uppercased, only when the question number
is not already present in the mapping built by the earlier passes (which
is taken here as an arbitrary input mapping). -/
def finalKeyPass (mapping : List (List Char × List Char)) (text : List Char) :
    List (List Char × List Char) :=
  (keyScan text).foldl
    (fun mp m => if (dictGet mp m.1).isSome then mp else dictSet mp m.1 [m.2.toUpper])
    mapping

/-! ### Reconciler / scorer (`evaluate_responses`) -/

/-- A per-question evaluation detail record. -/
structure EvalDetail where
  qnum : List Char
  correct : Option (List Char)
  user : Option (List Char)
  is_correct : Bool
deriving DecidableEq, Repr

/-- Accumulator of the evaluation loop. -/
structure EvalState where
  total : ℚ
  correct : Nat
  incorrect : Nat
  details : List EvalDetail
deriving DecidableEq, Repr

/-- Python truthiness of an optional string: `None` and the empty string
are falsy. -/
def truthy : Option (List Char) → Bool
  | none => false
  | some s => !s.isEmpty

/-- Canonical option letters `['A','B','C','D']`. -/
def canonicalLetters : List (List Char) := [['A'], ['B'], ['C'], ['D']]

/-- Key-resolution step of the evaluation loop: a truthy key entry that is
not a canonical letter is matched case-insensitively as a substring
against the option texts and replaced by the letter of the first matching
option.  Indexing `['A','B','C','D'][idx]` raises `IndexError` when the
first match is at position four or later, which the model renders as
`none`. -/
def resolveKey (ca : Option (List Char)) (opts : List (List Char)) :
    Option (Option (List Char)) :=
  match ca with
  | none => some none
  | some s =>
    if s.isEmpty || canonicalLetters.contains s then some (some s)
    else
      match opts.findIdx? (fun o => subStrL (lowerL s) (lowerL o)) with
      | none => some (some s)
      | some idx =>
        if idx < 4 then some (some (canonicalLetters.getD idx []))
        else none

/-- Loop body of `evaluate_responses` for a single question. -/
def evalStep (user_answers answer_key : List (List Char × List Char))
    (negative_mark marks_per_q : ℚ) (st : EvalState) (q : QuestionRec) :
    Option EvalState :=
  let user_ans := dictGet user_answers q.qnum
  match resolveKey (dictGet answer_key q.qnum) q.options with
  | none => none
  | some correct_ans =>
    let is_correct := truthy correct_ans && truthy user_ans &&
      (upperL (correct_ans.getD []) == upperL (user_ans.getD []))
    let d : EvalDetail := ⟨q.qnum, correct_ans, user_ans, is_correct⟩
    if is_correct then
      some { st with total := st.total + marks_per_q, correct := st.correct + 1,
                     details := st.details ++ [d] }
    else if truthy user_ans then
      some { st with total := st.total - negative_mark, incorrect := st.incorrect + 1,
                     details := st.details ++ [d] }
    else
      some { st with details := st.details ++ [d] }

/-- Model of `evaluate_responses`; the result is `none` when the loop
raises (the `IndexError` of `resolveKey`), and otherwise the tuple
`(total, correct, incorrect, details)`. -/
def evaluate_responses (questions : List QuestionRec)
    (user_answers answer_key : List (List Char × List Char))
    (negative_mark marks_per_q : ℚ) :
    Option (ℚ × Nat × Nat × List EvalDetail) :=
  (questions.foldlM (evalStep user_answers answer_key negative_mark marks_per_q)
      ⟨0, 0, 0, []⟩).map
    (fun st => (st.total, st.correct, st.incorrect, st.details))

/-! ### Auxiliary definitions used by the statements -/

/-- Existence of an option-start line among the non-empty lines of a
body. -/
def hasOptLine (body : List Char) : Bool :=
  (linesOf body).any (fun ln => (matchOptLine ln).isSome)

/-- Option lines of a re-serialised record: each option is put on its own
line, prefixed by its positional canonical label and a delimiter. -/
def serOptLines : List Char → List (List Char) → List Char
  | _, [] => []
  | [], _ :: _ => []
  | l :: ls, o :: os => '\n' :: l :: ')' :: ' ' :: (o ++ serOptLines ls os)

/-- Re-serialisation of a question record: the question number and a
delimiter, the prompt, then one line per option prefixed with its
canonical label and a delimiter. -/
def serializeQ (r : QuestionRec) : List Char :=
  r.qnum ++ ')' :: ' ' :: (r.question ++ serOptLines ['A', 'B', 'C', 'D'] r.options)

/-- Block consisting of `n` copies of the question line `1) q`. -/
def mkRep (n : Nat) : List Char :=
  (List.replicate n ("1) q\n").toList).flatten

/-- Absence of a question-split separator anywhere in a text: no newline
is followed (after whitespace) by a position where the question-number
lookahead succeeds. -/
def noSplitB : List Char → Bool
  | [] => true
  | c :: rest =>
    (if c == '\n' then !(lookQnum (rest.dropWhile isSpaceChar)) else true) &&
      noSplitB rest

/-! ### Helper lemmas -/

theorem dictGet_dictSet_of_ne (d : List (List Char × List Char)) (k1 k v : List Char)
    (h : k1 ≠ k) : dictGet (dictSet d k1 v) k = dictGet d k := by
  have hbeq : (k1 == k) = false := by simpa using h
  induction d with
  | nil => simp [dictSet, dictGet, List.find?, hbeq]
  | cons p rest ih =>
    by_cases hp : p.1 = k1
    · simp [dictSet, hp, dictGet, List.find?, hbeq]
    · simp only [dictSet]
      rw [if_neg (by simpa using hp)]
      by_cases hk : p.1 = k
      · simp [dictGet, List.find?, hk]
      · simp only [dictGet, List.find?] at ih ⊢
        rw [show (p.1 == k) = false by simpa using hk]
        exact ih

theorem flatMap_eq_map_of_singleton {α β : Type} (f : α → List β) (g : α → β)
    (l : List α) (h : ∀ x ∈ l, f x = [g x]) : l.flatMap f = l.map g := by
  induction l with
  | nil => rfl
  | cons x xs ih =>
    simp only [List.flatMap_cons, List.map_cons]
    rw [h x (by simp), ih (fun y hy => h y (by simp [hy]))]
    rfl

theorem evalStep_invariant (ua ak : List (List Char × List Char)) (neg m : ℚ)
    (st st' : EvalState) (q : QuestionRec)
    (h : evalStep ua ak neg m st q = some st')
    (hinv : st.total = m * st.correct - neg * st.incorrect) :
    st'.total = m * st'.correct - neg * st'.incorrect := by
  cases hres : resolveKey (dictGet ak q.qnum) q.options with
  | none => simp [evalStep, hres] at h
  | some ca =>
    simp only [evalStep, hres] at h
    split at h
    · injection h with h
      subst h
      push_cast
      rw [hinv]; ring
    · split at h
      · injection h with h
        subst h
        push_cast
        rw [hinv]; ring
      · injection h with h
        subst h
        simpa using hinv

theorem evalFold_invariant (ua ak : List (List Char × List Char)) (neg m : ℚ)
    (qs : List QuestionRec) :
    ∀ (st st' : EvalState),
      List.foldlM (evalStep ua ak neg m) st qs = some st' →
      st.total = m * st.correct - neg * st.incorrect →
      st'.total = m * st'.correct - neg * st'.incorrect := by
  induction qs with
  | nil =>
    intro st st' h hi
    injection h with h
    rw [← h]; exact hi
  | cons q rest ih =>
    intro st st' h hi
    rw [List.foldlM_cons] at h
    cases hstep : evalStep ua ak neg m st q with
    | none => rw [hstep] at h; simp at h
    | some st1 =>
      rw [hstep] at h
      simp only [Option.bind_eq_bind, Option.some_bind] at h
      exact ih st1 st' h (evalStep_invariant ua ak neg m st st1 q hstep hi)

theorem findIdx?_eq_none_of_all {α : Type} (p : α → Bool) (l : List α)
    (h : ∀ x ∈ l, p x = false) : ∀ i, List.findIdx? p l i = none := by
  induction l with
  | nil => intro i; rfl
  | cons x xs ih =>
    intro i
    rw [List.findIdx?_cons, h x (by simp)]
    rw [if_neg (by simp)]
    exact ih (fun y hy => h y (by simp [hy])) (i + 1)

/-! ### Claim C8 -/

/-- Claim C8: for a document handle on which opening or reading fails,
the page-text source catches the exception, yields the empty page
sequence, and reports the failure as a user-visible error message. -/
theorem C8_page_source_failure (e : List Char) :
    extract_pages_text (Except.error e) = ([], [openErrorMessage e]) := rfl

/-! ### Claim C7 -/

/-- Claim C7: the final low-confidence pass of the answer-key parser
never overwrites a key that is already present in the mapping built by
the earlier, higher-confidence passes (taken here as an arbitrary prior
mapping); matches found by the pass are stored only for absent numbers. -/
theorem C7_final_pass_preserves (mapping : List (List Char × List Char))
    (text : List Char) (k v : List Char)
    (h : dictGet mapping k = some v) :
    dictGet (finalKeyPass mapping text) k = some v := by
  unfold finalKeyPass
  generalize keyScan text = ms
  induction ms generalizing mapping with
  | nil => simpa using h
  | cons m rest ih =>
    simp only [List.foldl_cons]
    by_cases hm : (dictGet mapping m.1).isSome
    · rw [if_pos hm]; exact ih mapping h
    · rw [if_neg hm]
      apply ih
      have hne : m.1 ≠ k := by
        intro he
        rw [he, h] at hm
        simp at hm
      rw [dictGet_dictSet_of_ne _ _ _ _ hne]
      exact h

/-- Witness for C7 at a concrete mapping and text. -/
theorem C7_final_pass_preserves_witness :
    dictGet (finalKeyPass [(['1'], ['X'])] ("1) a  2) b").toList) ['1'] = some ['X'] :=
  C7_final_pass_preserves _ _ _ _ (by decide)

/-! ### Claim C4 -/

/-- Counterexample to claim C4 as stated: for a two-page alternating
document (k = 1), the segmenter at offset 1 yields one block equal to
the raw text of the odd-indexed page 1, not of the even-indexed page
0 = i * 2 that the claim demands. -/
theorem C4_counterexample :
    english_columns_blocks
        [⟨("P0").toList, ("P0").toList, []⟩, ⟨("P1").toList, ("P1").toList, []⟩] true =
      [("P1").toList] ∧
    ¬ english_columns_blocks
        [⟨("P0").toList, ("P0").toList, []⟩, ⟨("P1").toList, ("P1").toList, []⟩] true =
      [("P0").toList] := by decide

/-- Claim C4, amended: for a 2k-page strictly alternating document whose
first page is secondary-language (each page carrying its raw text in the
left column), the segmenter at offset 1 yields exactly k blocks, and the
i-th block equals the raw text of the odd-indexed page 2*i+1 (the
original claim said the even-indexed page i*2). -/
theorem C4_amended (k : Nat) (pages : List PdfPage)
    (hlen : pages.length = 2 * k)
    (hp : ∀ p ∈ pages, p.leftText = p.rawText ∧ p.rightText = [] ∧
      pyStripL p.rawText = p.rawText ∧ p.rawText ≠ []) :
    (english_columns_blocks pages true).length = k ∧
    ∀ i, i < k →
      (english_columns_blocks pages true).getD i [] =
        (pages.getD (2 * i + 1) ⟨[], [], []⟩).rawText := by
  rcases Nat.eq_zero_or_pos k with hk | hk
  · subst hk
    have hnil : pages = [] := List.length_eq_zero.mp (by omega)
    subst hnil
    exact ⟨rfl, fun i hi => absurd hi (by omega)⟩
  · have hne : pages ≠ [] := by
      intro hnil
      rw [hnil] at hlen
      simp at hlen
      omega
    have hblocks : english_columns_blocks pages true =
        (List.range k).map (fun i => (pages.getD (1 + 2 * i) ⟨[], [], []⟩).rawText) := by
      unfold english_columns_blocks
      rw [if_neg (by simpa using hne)]
      have hr : rangeBy2 (if true = true then 1 else 0) pages.length =
          (List.range k).map (fun i => 1 + 2 * i) := by
        rw [if_pos rfl]
        unfold rangeBy2
        rw [hlen]
        have h2 : (2 * k - 1 + 1) / 2 = k := by omega
        rw [h2]
      rw [hr, List.flatMap_map]
      apply flatMap_eq_map_of_singleton
      intro i hi
      rw [List.mem_range] at hi
      have hilt : 1 + 2 * i < pages.length := by omega
      have hmem : pages.getD (1 + 2 * i) ⟨[], [], []⟩ ∈ pages := by
        rw [List.getD_eq_getElem pages ⟨[], [], []⟩ hilt]
        exact List.getElem_mem hilt
      obtain ⟨hl, hr2, hs, hne2⟩ := hp _ hmem
      cases hraw : (pages.getD (1 + 2 * i) ⟨[], [], []⟩).rawText with
      | nil => exact absurd hraw hne2
      | cons c cs =>
        rw [hraw] at hs
        simp only [hl, hr2, hraw, hs]
        simp [show pyStripL ([] : List Char) = [] from rfl]
    constructor
    · rw [hblocks]; simp
    · intro i hi
      rw [hblocks]
      have hil : i < ((List.range k).map
          (fun i => (pages.getD (1 + 2 * i) ⟨[], [], []⟩).rawText)).length := by simpa using hi
      rw [List.getD_eq_getElem _ [] hil, List.getElem_map _, List.getElem_range _ _]
      rw [show 1 + 2 * i = 2 * i + 1 by omega]

/-- Witness for C4 at a concrete two-page document. -/
theorem C4_amended_witness :
    (english_columns_blocks [⟨("P0").toList, ("P0").toList, []⟩,
        ⟨("P1").toList, ("P1").toList, []⟩] true).length = 1 ∧
    ∀ i, i < 1 →
      (english_columns_blocks [⟨("P0").toList, ("P0").toList, []⟩,
          ⟨("P1").toList, ("P1").toList, []⟩] true).getD i [] =
        ([⟨("P0").toList, ("P0").toList, []⟩,
          ⟨("P1").toList, ("P1").toList, []⟩].getD (2 * i + 1)
          (⟨[], [], []⟩ : PdfPage)).rawText :=
  C4_amended 1 _ (by decide) (by decide)

/-! ### Claim C1 -/

/-- Counterexample to claim C1 as stated: a question whose answer-key
entry is absent, but which the user answered, is counted incorrect and
has the negative mark subtracted; it does not contribute zero. -/
theorem C1_counterexample :
    (evaluate_responses [⟨['1'], ['q'], [['x'], ['y']]⟩] [(['1'], ['A'])] [] 1 1).map
        (fun r => (r.2.1, r.2.2.1)) = some (0, 1) ∧
    (evaluate_responses [⟨['1'], ['q'], [['x'], ['y']]⟩] [(['1'], ['A'])] [] 1 1).map
        (fun r => r.1) = some (0 - 1) ∧
    ¬ (evaluate_responses [⟨['1'], ['q'], [['x'], ['y']]⟩] [(['1'], ['A'])] [] 1 1).map
        (fun r => (r.2.1, r.2.2.1)) = some (0, 0) :=
  ⟨by decide, rfl, by decide⟩

/-- Claim C1, amended: a question whose answer-key entry is absent is
never counted correct; it is counted as neither correct nor incorrect
and contributes zero only when the user did not supply a (truthy)
answer, and when the user did answer it, the incorrect count is
incremented and the negative mark is subtracted. -/
theorem C1_amended (user_answers answer_key : List (List Char × List Char))
    (negative_mark marks_per_q : ℚ) (st : EvalState) (q : QuestionRec)
    (h : dictGet answer_key q.qnum = none) :
    ∃ st', evalStep user_answers answer_key negative_mark marks_per_q st q = some st' ∧
      st'.correct = st.correct ∧
      st'.incorrect =
        (if truthy (dictGet user_answers q.qnum) then st.incorrect + 1 else st.incorrect) ∧
      st'.total =
        (if truthy (dictGet user_answers q.qnum) then st.total - negative_mark
         else st.total) := by
  have hres : resolveKey (dictGet answer_key q.qnum) q.options = some none := by
    rw [h]; rfl
  cases htu : truthy (dictGet user_answers q.qnum) with
  | true =>
    refine ⟨{ st with
        total := st.total - negative_mark
        incorrect := st.incorrect + 1
        details := st.details ++ [⟨q.qnum, none, dictGet user_answers q.qnum, false⟩] },
      ?_, rfl, by simp [htu], by simp [htu]⟩
    simp only [evalStep, hres]
    rw [if_neg (by simp [truthy]), if_pos htu]
    simp [truthy]
  | false =>
    refine ⟨{ st with
        details := st.details ++ [⟨q.qnum, none, dictGet user_answers q.qnum, false⟩] },
      ?_, rfl, by simp [htu], by simp [htu]⟩
    simp only [evalStep, hres]
    rw [if_neg (by simp [truthy]), if_neg (by simp [htu])]
    simp [truthy]

/-- Witness for C1 applied at a concrete call. -/
theorem C1_amended_witness :
    ∃ st', evalStep [(['1'], ['A'])] [] 1 1 ⟨0, 0, 0, []⟩ ⟨['1'], ['q'], []⟩ = some st' ∧
      st'.correct = 0 ∧
      st'.incorrect = (if truthy (dictGet [(['1'], ['A'])] ['1']) then 0 + 1 else 0) ∧
      st'.total = (if truthy (dictGet [(['1'], ['A'])] ['1']) then 0 - 1 else 0) :=
  C1_amended [(['1'], ['A'])] [] 1 1 ⟨0, 0, 0, []⟩ ⟨['1'], ['q'], []⟩ (by decide)

/-! ### Claim C5 -/

/-- Counterexample to claim C5 as stated: a raw-text key entry matching
no option still marks the question correct when the user's (free-text)
answer equals the key text up to case. -/
theorem C5_counterexample :
    (evaluate_responses [⟨['1'], ['q'], []⟩] [(['1'], ("paris").toList)]
        [(['1'], ("PARIS").toList)] 0 1).map (fun r => r.2.1) = some 1 ∧
    ¬ (evaluate_responses [⟨['1'], ['q'], []⟩] [(['1'], ("paris").toList)]
        [(['1'], ("PARIS").toList)] 0 1).map (fun r => r.2.1) = some 0 := by decide

/-- Claim C5, amended: for a question whose key entry is raw text (not a
canonical letter) that matches none of the options as a case-insensitive
substring, the question is counted correct exactly when the user supplied
a truthy answer whose uppercase form equals the uppercase form of the raw
key text; for every other user answer it is not counted correct. -/
theorem C5_amended (user_answers answer_key : List (List Char × List Char))
    (neg m : ℚ) (st : EvalState) (q : QuestionRec) (s : List Char)
    (hk : dictGet answer_key q.qnum = some s) (hs : s ≠ [])
    (hcan : s ∉ canonicalLetters)
    (hnm : ∀ o ∈ q.options, subStrL (lowerL s) (lowerL o) = false) :
    ∃ st', evalStep user_answers answer_key neg m st q = some st' ∧
      st'.correct =
        (if truthy (dictGet user_answers q.qnum) = true ∧
            upperL s = upperL ((dictGet user_answers q.qnum).getD [])
         then st.correct + 1 else st.correct) := by
  have hres : resolveKey (dictGet answer_key q.qnum) q.options = some (some s) := by
    rw [hk]
    simp only [resolveKey]
    rw [if_neg (by simp [hs, hcan]), findIdx?_eq_none_of_all _ _ hnm 0]
  have hts : truthy (some s) = true := by simp [truthy, hs]
  by_cases hcond : truthy (dictGet user_answers q.qnum) = true ∧
      upperL s = upperL ((dictGet user_answers q.qnum).getD [])
  · have hicT : (truthy (some s) && truthy (dictGet user_answers q.qnum) &&
        (upperL ((some s).getD []) == upperL ((dictGet user_answers q.qnum).getD []))) =
        true := by
      simp only [Option.getD_some, Bool.and_eq_true, beq_iff_eq]
      exact ⟨⟨hts, hcond.1⟩, hcond.2⟩
    refine ⟨{ st with
        total := st.total + m
        correct := st.correct + 1
        details := st.details ++ [⟨q.qnum, some s, dictGet user_answers q.qnum, true⟩] },
      ?_, by rw [if_pos hcond]⟩
    simp only [evalStep, hres]
    rw [if_pos hicT, hicT]
  · have hicF : (truthy (some s) && truthy (dictGet user_answers q.qnum) &&
        (upperL ((some s).getD []) == upperL ((dictGet user_answers q.qnum).getD []))) =
        false := by
      rcases Decidable.not_and_iff_or_not.mp hcond with hcu | hce
      · simp [hcu]
      · simp only [Option.getD_some, Bool.and_eq_false_iff]
        right
        simpa using hce
    cases htu : truthy (dictGet user_answers q.qnum) with
    | true =>
      have hup : ¬ upperL s = upperL ((dictGet user_answers q.qnum).getD []) :=
        fun he => hcond ⟨htu, he⟩
      refine ⟨{ st with
          total := st.total - neg
          incorrect := st.incorrect + 1
          details := st.details ++ [⟨q.qnum, some s, dictGet user_answers q.qnum, false⟩] },
        ?_, by rw [if_neg (fun hc => hup hc.2)]⟩
      simp only [evalStep, hres]
      rw [if_neg (by rw [hicF]; simp), if_pos htu, hicF]
    | false =>
      refine ⟨{ st with
          details := st.details ++ [⟨q.qnum, some s, dictGet user_answers q.qnum, false⟩] },
        ?_, by rw [if_neg (fun hc => absurd hc.1 (by simp))]⟩
      simp only [evalStep, hres]
      rw [if_neg (by rw [hicF]; simp), if_neg (by simp [htu]), hicF]

/-- Witness for C5 applied at a concrete call. -/
theorem C5_amended_witness :
    ∃ st', evalStep [(['1'], ['Z', 'z'])] [(['1'], ['z', 'Z'])] 0 1 ⟨0, 0, 0, []⟩
        ⟨['1'], ['q'], [['x']]⟩ = some st' ∧
      st'.correct =
        (if truthy (dictGet [(['1'], ['Z', 'z'])] ['1']) = true ∧
            upperL ['z', 'Z'] = upperL ((dictGet [(['1'], ['Z', 'z'])] ['1']).getD [])
         then 0 + 1 else 0) :=
  C5_amended [(['1'], ['Z', 'z'])] [(['1'], ['z', 'Z'])] 0 1 ⟨0, 0, 0, []⟩
    ⟨['1'], ['q'], [['x']]⟩ ['z', 'Z'] (by decide) (by decide) (by decide) (by decide)

/-! ### Claim C10 -/

/-- Claim C10: whenever `evaluate_responses` returns, the aggregate total
equals `marks_per_q` times the correct count minus `negative_mark` times
the incorrect count, over exact rationals. -/
theorem C10_total_eq (qs : List QuestionRec) (ua ak : List (List Char × List Char))
    (neg m : ℚ) (t : ℚ) (c i : Nat) (d : List EvalDetail)
    (h : evaluate_responses qs ua ak neg m = some (t, c, i, d)) :
    t = m * c - neg * i := by
  unfold evaluate_responses at h
  cases hst : List.foldlM (evalStep ua ak neg m) (⟨0, 0, 0, []⟩ : EvalState) qs with
  | none => rw [hst] at h; simp at h
  | some st =>
    rw [hst] at h
    simp at h
    obtain ⟨ht, hc, hi, -⟩ := h
    have := evalFold_invariant ua ak neg m qs ⟨0, 0, 0, []⟩ st hst (by simp)
    rw [← ht, ← hc, ← hi]
    exact this

/-- Witness for C10 at the spec's worked scoring example: marks 2,
negative mark 0.66, one correct, one incorrect, one unanswered (the
total is kept in the unevaluated form produced by the loop). -/
theorem C10_total_eq_witness :
    (0 + 2 - 33 / 50 : ℚ) = 2 * ((1 : Nat) : ℚ) - (33 / 50) * ((1 : Nat) : ℚ) :=
  C10_total_eq
    [⟨['1'], ['q'], [['u'], ['v']]⟩, ⟨['2'], ['q'], [['u'], ['v']]⟩,
     ⟨['3'], ['q'], [['u'], ['v']]⟩]
    [(['1'], ['A']), (['2'], ['A'])]
    [(['1'], ['A']), (['2'], ['B']), (['3'], ['A'])]
    (33 / 50) 2 (0 + 2 - 33 / 50) 1 1
    [⟨['1'], some ['A'], some ['A'], true⟩, ⟨['2'], some ['B'], some ['A'], false⟩,
     ⟨['3'], some ['A'], none, false⟩]
    rfl

/-! ### Claim C2 -/

theorem appendToLast_length (opts : List (Char × List Char)) (ln : List Char) :
    (appendToLast opts ln).length = opts.length := by
  induction opts with
  | nil => rfl
  | cons o rest ih =>
    cases rest with
    | nil => rfl
    | cons o2 r2 => simpa [appendToLast] using ih

theorem insStable_length (x : Char × List Char) (l : List (Char × List Char)) :
    (insStable x l).length = l.length + 1 := by
  induction l with
  | nil => rfl
  | cons y ys ih =>
    simp only [insStable]
    by_cases h : optKey y ≤ optKey x
    · rw [if_pos h]; simp [ih]
    · rw [if_neg h]; simp

theorem sortOpts_foldl_length (l : List (Char × List Char)) :
    ∀ acc, (List.foldl (fun acc x => insStable x acc) acc l).length =
      acc.length + l.length := by
  induction l with
  | nil => intro acc; simp
  | cons x xs ih =>
    intro acc
    simp only [List.foldl_cons]
    rw [ih (insStable x acc), insStable_length]
    simp only [List.length_cons]
    omega

theorem sortOpts_length (l : List (Char × List Char)) :
    (sortOpts l).length = l.length := by
  unfold sortOpts
  rw [sortOpts_foldl_length]
  simp

theorem findOptSplit_eq_none_of_any (lns : List (List Char))
    (h : lns.any (fun ln => (matchOptLine ln).isSome) = false) :
    findOptSplit lns = none := by
  induction lns with
  | nil => rfl
  | cons ln rest ih =>
    simp only [List.any_cons, Bool.or_eq_false_iff] at h
    simp only [findOptSplit]
    rw [if_neg (by simp [h.1]), ih h.2]

theorem findOptSplit_eq_some_of_any (lns : List (List Char))
    (h : lns.any (fun ln => (matchOptLine ln).isSome) = true) :
    ∃ b ln rest, findOptSplit lns = some (b, ln :: rest) ∧
      (matchOptLine ln).isSome = true := by
  induction lns with
  | nil => simp at h
  | cons l0 rest ih =>
    by_cases h0 : (matchOptLine l0).isSome = true
    · exact ⟨[], l0, rest, by simp [findOptSplit, h0], h0⟩
    · simp only [List.any_cons, Bool.or_eq_true] at h
      have h2 : rest.any (fun ln => (matchOptLine ln).isSome) = true := by
        rcases h with h | h
        · exact absurd h h0
        · exact h
      obtain ⟨b, ln, r2, heq, hm⟩ := ih h2
      exact ⟨l0 :: b, ln, r2, by simp [findOptSplit, h0, heq], hm⟩

/-- Counterexample to claim C2 as stated: the block below parses to a
single record whose options list has exactly one entry (the line-based
scan keeps a 1-option result). -/
theorem C2_counterexample :
    ¬ (∀ r ∈ parse_mcqs_from_column_text ("1) q?\nA. x").toList,
        r.options.length = 0 ∨ 2 ≤ r.options.length) := by decide

/-- Claim C2, amended: the invariant `options empty or of length at least
2` holds for every record whose body contains no option-start line (the
inline fallback requires at least two matches), but the line-based scan
can produce a record with exactly one option. -/
theorem C2_amended (p : List Char) (r : QuestionRec)
    (hr : parsePart p = some r) (hno : hasOptLine (bodyOfPart p) = false) :
    r.options.length = 0 ∨ 2 ≤ r.options.length := by
  unfold parsePart at hr
  by_cases hp1 : (pyStripL p).isEmpty
  · rw [if_pos hp1] at hr; cases hr
  · rw [if_neg hp1] at hr
    cases hm : matchQnumBody (stripQ (pyStripL p)) with
    | none => rw [hm] at hr; cases hr
    | some pr =>
      rw [hm] at hr
      obtain ⟨ds, rawBody⟩ := pr
      have hbody : bodyOfPart p = pyStripL rawBody := by
        unfold bodyOfPart; rw [hm]
      rw [hbody] at hno
      have hfos : findOptSplit (linesOf (pyStripL rawBody)) = none :=
        findOptSplit_eq_none_of_any _ (by simpa [hasOptLine] using hno)
      simp only [parseBody, hfos, inlineBranch] at hr
      by_cases hil : 2 ≤ (inlineFind (pyStripL rawBody)).length
      · rw [if_pos hil] at hr
        injection hr with hr
        right
        rw [← hr]
        simpa [sortOpts_length] using hil
      · rw [if_neg hil] at hr
        injection hr with hr
        left
        rw [← hr]
        simp [sortOpts_length, sortOpts]

/-- Witness for C2 using a record with no detected options. -/
theorem C2_amended_witness :
    (⟨['1'], ("hello").toList, []⟩ : QuestionRec).options.length = 0 ∨
      2 ≤ (⟨['1'], ("hello").toList, []⟩ : QuestionRec).options.length :=
  C2_amended (("1) hello").toList) _ (by decide) (by decide)

/-! ### Claim C3 -/

theorem collectOpts_len_le (lns : List (List Char)) :
    ∀ qt acc, acc.length ≤ (collectOpts qt acc lns).2.length := by
  induction lns with
  | nil => intro qt acc; simp [collectOpts]
  | cons ln rest ih =>
    intro qt acc
    simp only [collectOpts]
    cases hm : matchOptLine ln with
    | some p =>
      calc acc.length ≤ (acc ++ [(labelNorm p.1, p.2)]).length := by simp
        _ ≤ _ := ih _ _
    | none =>
      by_cases he : acc.isEmpty
      · rw [if_pos he]
        exact ih _ _
      · rw [if_neg he]
        calc acc.length = (appendToLast acc ln).length := (appendToLast_length _ _).symm
          _ ≤ _ := ih _ _

/-- Counterexample to claim C3 as stated: in the block below the
line-based scan recovers a single option (fewer than 2), yet this result
is kept and the inline fallback (which would find two label markers in
the body) is not attempted. -/
theorem C3_counterexample :
    (parse_mcqs_from_column_text ("1) q (a) rr; (b) ss\nA. z").toList).map
        (fun r => r.options) = [[['z']]] ∧
    2 ≤ (inlineFind (bodyOfPart (("1) q (a) rr; (b) ss\nA. z").toList))).length := by
  exact ⟨by decide, by decide⟩

/-- Claim C3, amended: the inline fallback is attempted exactly when no
option-start line exists in the body; when such a line exists, the
line-based result is kept regardless of how many options it recovered
(and it always recovers at least one). -/
theorem C3_amended (body : List Char) :
    (hasOptLine body = false → parseBody body = inlineBranch body) ∧
    (hasOptLine body = true →
      ∃ b ln rest, findOptSplit (linesOf body) = some (b, ln :: rest) ∧
        parseBody body = collectOpts (pyStripL (joinSpace b)) [] (ln :: rest) ∧
        1 ≤ (parseBody body).2.length) := by
  constructor
  · intro h
    unfold parseBody
    rw [findOptSplit_eq_none_of_any _ (by simpa [hasOptLine] using h)]
  · intro h
    obtain ⟨b, ln, rest, heq, hm⟩ :=
      findOptSplit_eq_some_of_any _ (by simpa [hasOptLine] using h)
    obtain ⟨lab, txt, hml⟩ : ∃ lab txt, matchOptLine ln = some (lab, txt) := by
      cases hmo : matchOptLine ln with
      | none => rw [hmo] at hm; cases hm
      | some q =>
        obtain ⟨lab, txt⟩ := q
        exact ⟨lab, txt, rfl⟩
    have hpb : parseBody body = collectOpts (pyStripL (joinSpace b)) [] (ln :: rest) := by
      unfold parseBody
      rw [heq]
    refine ⟨b, ln, rest, heq, hpb, ?_⟩
    rw [hpb]
    simp only [collectOpts, hml]
    calc 1 = ([] ++ [(labelNorm lab, txt)] : List (Char × List Char)).length := by simp
      _ ≤ _ := collectOpts_len_le _ _ _

/-- Witness for C3 applied at a body with no option-start line. -/
theorem C3_amended_witness :
    parseBody ("hello there").toList = inlineBranch ("hello there").toList :=
  (C3_amended (("hello there").toList)).1 (by decide)

/-! ### Claim C6 -/

theorem parse_all_loop_le (cols : List (List Char)) :
    ∀ acc, (parse_all_loop acc cols).length ≤ 100 := by
  induction cols with
  | nil =>
    intro acc
    simp only [parse_all_loop, List.length_take]
    exact Nat.min_le_left 100 acc.length
  | cons c cs ih =>
    intro acc
    simp only [parse_all_loop]
    by_cases he : (pyStripL c).isEmpty
    · rw [if_pos he]
      exact ih acc
    · rw [if_neg he]
      by_cases hlen : 100 ≤ (acc ++ parse_mcqs_from_column_text (pyStripL c)).length
      · rw [if_pos hlen]
        simp only [List.length_take]
        exact Nat.min_le_left 100 _
      · rw [if_neg hlen]
        exact ih _

theorem mkRep_zero : mkRep 0 = [] := rfl

theorem mkRep_succ (n : Nat) :
    mkRep (n + 1) = '1' :: ')' :: ' ' :: 'q' :: '\n' :: mkRep n := by
  simp only [mkRep, List.replicate_succ, List.flatten_cons]
  rfl

/-- Pieces into which the block `mkRep (n + 1)` splits. -/
def repPieces : Nat → List (List Char)
  | 0 => [['1', ')', ' ', 'q', '\n']]
  | n + 1 => ['1', ')', ' ', 'q'] :: repPieces n

theorem repPieces_head_tail (n : Nat) :
    (repPieces n).headI :: (repPieces n).tail = repPieces n := by
  cases n <;> rfl

theorem splitQScanF_empty (f : Nat) (acc : List Char) :
    splitQScanF f acc [] = [acc.reverse] := by
  cases f with
  | zero => simp [splitQScanF]
  | succ g => rfl

theorem splitQScanF_cons_ne (f : Nat) (hf : 1 ≤ f) (acc : List Char) (c : Char)
    (rest : List Char) (h : (c == '\n') = false) :
    splitQScanF f acc (c :: rest) = splitQScanF (f - 1) (c :: acc) rest := by
  obtain ⟨g, rfl⟩ : ∃ g, f = g + 1 := ⟨f - 1, by omega⟩
  simp [splitQScanF, h]

theorem splitQScanF_cons_nl_split (f : Nat) (hf : 1 ≤ f) (acc rest : List Char)
    (h : lookQnum (rest.dropWhile isSpaceChar) = true) :
    splitQScanF f acc ('\n' :: rest) =
      acc.reverse :: splitQScanF (f - 1) [] (rest.dropWhile isSpaceChar) := by
  obtain ⟨g, rfl⟩ : ∃ g, f = g + 1 := ⟨f - 1, by omega⟩
  simp [splitQScanF, h]

theorem splitQScanF_cons_nl_nosplit (f : Nat) (hf : 1 ≤ f) (acc rest : List Char)
    (h : lookQnum (rest.dropWhile isSpaceChar) = false) :
    splitQScanF f acc ('\n' :: rest) = splitQScanF (f - 1) ('\n' :: acc) rest := by
  obtain ⟨g, rfl⟩ : ∃ g, f = g + 1 := ⟨f - 1, by omega⟩
  simp [splitQScanF, h]

theorem dropWhile_mkRep (n : Nat) :
    (mkRep (n + 1)).dropWhile isSpaceChar = mkRep (n + 1) := by
  rw [mkRep_succ]
  rfl

theorem lookQnum_mkRep (n : Nat) : lookQnum (mkRep (n + 1)) = true := by
  rw [mkRep_succ]
  rfl

theorem split_mkRep (n : Nat) : ∀ (f : Nat) (acc : List Char), 5 * (n + 1) ≤ f →
    splitQScanF f acc (mkRep (n + 1)) =
      (acc.reverse ++ (repPieces n).headI) :: (repPieces n).tail := by
  induction n with
  | zero =>
    intro f acc hf
    rw [mkRep_succ, mkRep_zero]
    rw [splitQScanF_cons_ne f (by omega) _ _ _ (by decide)]
    rw [splitQScanF_cons_ne (f - 1) (by omega) _ _ _ (by decide)]
    rw [splitQScanF_cons_ne (f - 1 - 1) (by omega) _ _ _ (by decide)]
    rw [splitQScanF_cons_ne (f - 1 - 1 - 1) (by omega) _ _ _ (by decide)]
    rw [splitQScanF_cons_nl_nosplit (f - 1 - 1 - 1 - 1) (by omega) _ _ (by decide)]
    rw [splitQScanF_empty]
    simp [repPieces]
  | succ n ih =>
    intro f acc hf
    rw [mkRep_succ]
    rw [splitQScanF_cons_ne f (by omega) _ _ _ (by decide)]
    rw [splitQScanF_cons_ne (f - 1) (by omega) _ _ _ (by decide)]
    rw [splitQScanF_cons_ne (f - 1 - 1) (by omega) _ _ _ (by decide)]
    rw [splitQScanF_cons_ne (f - 1 - 1 - 1) (by omega) _ _ _ (by decide)]
    rw [splitQScanF_cons_nl_split (f - 1 - 1 - 1 - 1) (by omega) _ _
      (by rw [dropWhile_mkRep]; exact lookQnum_mkRep n)]
    rw [dropWhile_mkRep]
    rw [ih (f - 1 - 1 - 1 - 1 - 1) [] (by omega)]
    simp only [List.reverse_cons, List.reverse_nil, List.nil_append, List.append_assoc,
      List.cons_append]
    rw [repPieces_head_tail]
    simp [repPieces]

theorem mkRep_length (n : Nat) : (mkRep n).length = 5 * n := by
  induction n with
  | zero => rfl
  | succ m ih =>
    rw [mkRep_succ]
    simp only [List.length_cons, ih]
    omega

theorem mapRepl_mkRep (n : Nat) :
    (mkRep n).map (fun c => if c == '\r' then '\n' else c) = mkRep n := by
  induction n with
  | zero => rfl
  | succ m ih =>
    rw [mkRep_succ]
    simp only [List.map_cons, ih]
    rfl

theorem filterMap_repPieces (n : Nat) :
    ((repPieces n).filterMap parsePart).length = n + 1 := by
  induction n with
  | zero => rfl
  | succ m ih =>
    simp only [repPieces, List.filterMap_cons]
    rw [show parsePart ['1', ')', ' ', 'q'] =
      some ⟨['1'], ['q'], []⟩ from rfl]
    simpa using ih

theorem parse_mkRep_len (n : Nat) :
    (parse_mcqs_from_column_text (mkRep n)).length = n := by
  cases n with
  | zero => rfl
  | succ m =>
    unfold parse_mcqs_from_column_text
    rw [if_neg (by rw [mkRep_succ]; simp)]
    simp only [splitQuestions, mapRepl_mkRep]
    rw [split_mkRep m _ [] (by rw [mkRep_length])]
    simp only [List.reverse_nil, List.nil_append]
    rw [repPieces_head_tail]
    rw [filterMap_repPieces]

/-- Claim C6: the per-block question parser imposes no bound on the
number of records it returns (the generator `mkRep` produces a block
yielding exactly n records for every n), while the merging caller never
returns more than 100 records for any input text. -/
theorem C6_block_unbounded_caller_capped :
    (∀ full_text : List Char, (parse_all_columns_to_questions full_text).length ≤ 100) ∧
    (∀ n : Nat, (parse_mcqs_from_column_text (mkRep n)).length = n) := by
  constructor
  · intro t
    unfold parse_all_columns_to_questions
    by_cases he : t.isEmpty
    · rw [if_pos he]
      simp
    · rw [if_neg he]
      exact parse_all_loop_le _ []
  · exact parse_mkRep_len

/-! ### Claim C9: infrastructure -/

theorem char_beq_eq_false_of_isDigit {c d : Char} (h : c.isDigit = true)
    (hd : d.isDigit = false) : (c == d) = false := by
  by_cases he : c = d
  · rw [he] at h
    rw [h] at hd
    cases hd
  · simpa using he

theorem isSpaceChar_eq_false_of_isDigit {c : Char} (h : c.isDigit = true) :
    isSpaceChar c = false := by
  unfold isSpaceChar
  rw [char_beq_eq_false_of_isDigit h (by decide),
    char_beq_eq_false_of_isDigit h (by decide),
    char_beq_eq_false_of_isDigit h (by decide),
    char_beq_eq_false_of_isDigit h (by decide),
    char_beq_eq_false_of_isDigit h (by decide),
    char_beq_eq_false_of_isDigit h (by decide)]
  rfl

theorem beq_nl_eq_false_of_not_space {c : Char} (h : isSpaceChar c = false) :
    (c == '\n') = false := by
  by_cases he : c = '\n'
  · rw [he] at h; cases h
  · simpa using he

theorem beq_cr_eq_false_of_not_space {c : Char} (h : isSpaceChar c = false) :
    (c == '\r') = false := by
  by_cases he : c = '\r'
  · rw [he] at h; cases h
  · simpa using he

theorem beq_Qq_eq_false_of_isDigit {c : Char} (h : c.isDigit = true) :
    ((c == 'Q') = false) ∧ ((c == 'q') = false) :=
  ⟨char_beq_eq_false_of_isDigit h (by decide),
   char_beq_eq_false_of_isDigit h (by decide)⟩

theorem dropWhile_cons_neg {p : Char → Bool} {c : Char} (t : List Char)
    (h : p c = false) : (c :: t).dropWhile p = c :: t := by
  rw [List.dropWhile_cons, if_neg (by simp [h])]

theorem dropWhile_length_le (p : Char → Bool) (l : List Char) :
    (l.dropWhile p).length ≤ l.length := by
  induction l with
  | nil => simp
  | cons c t ih =>
    rw [List.dropWhile_cons]
    by_cases hp : p c
    · rw [if_pos hp]
      exact le_trans ih (by simp)
    · rw [if_neg hp]

theorem dropWhile_eq_nil_forall {p : Char → Bool} {l : List Char}
    (h : l.dropWhile p = []) : ∀ c ∈ l, p c = true := by
  induction l with
  | nil => intro c hc; cases hc
  | cons x t ih =>
    intro c hc
    rw [List.dropWhile_cons] at h
    by_cases hx : p x
    · rw [if_pos hx] at h
      rcases List.mem_cons.mp hc with hc | hc
      · rw [hc]; exact hx
      · exact ih h c hc
    · rw [if_neg hx] at h
      cases h

theorem dropWhile_eq_self_of_length_le {p : Char → Bool} {l : List Char}
    (h : l.length ≤ (l.dropWhile p).length) : l.dropWhile p = l := by
  cases l with
  | nil => rfl
  | cons c t =>
    by_cases hp : p c
    · exfalso
      rw [List.dropWhile_cons, if_pos hp] at h
      have h2 := dropWhile_length_le p t
      simp only [List.length_cons] at h
      omega
    · rw [List.dropWhile_cons, if_neg hp]

theorem stripped_dropWhile {l : List Char} (h : pyStripL l = l) :
    l.dropWhile isSpaceChar = l := by
  apply dropWhile_eq_self_of_length_le
  conv_lhs => rw [← h]
  unfold pyStripL
  rw [List.length_reverse]
  exact le_trans (dropWhile_length_le _ _) (by rw [List.length_reverse])

theorem stripped_rev_dropWhile {l : List Char} (h : pyStripL l = l) :
    l.reverse.dropWhile isSpaceChar = l.reverse := by
  have h2 : l = ((l.reverse.dropWhile isSpaceChar)).reverse := by
    conv_lhs => rw [← h]
    unfold pyStripL
    rw [stripped_dropWhile h]
  conv_rhs => rw [h2]
  rw [List.reverse_reverse]

theorem pyStripL_eq_self_of {l : List Char}
    (h1 : l.dropWhile isSpaceChar = l)
    (h2 : l.reverse.dropWhile isSpaceChar = l.reverse) : pyStripL l = l := by
  unfold pyStripL
  rw [h1, h2, List.reverse_reverse]

theorem head_pred_false_of_dropWhile_self {p : Char → Bool} {c : Char} {t : List Char}
    (h : (c :: t).dropWhile p = c :: t) : p c = false := by
  by_contra hb
  rw [List.dropWhile_cons, if_pos (by simpa using hb)] at h
  have h2 := dropWhile_length_le p t
  have h3 := congrArg List.length h
  simp only [List.length_cons] at h3
  omega

theorem dropWhile_append_of_stripped {p : Char → Bool} {a : List Char} (b : List Char)
    (ha : a.dropWhile p = a) (hne : a ≠ []) :
    (a ++ b).dropWhile p = a ++ b := by
  cases a with
  | nil => exact absurd rfl hne
  | cons c t =>
    have hc : p c = false := head_pred_false_of_dropWhile_self ha
    exact dropWhile_cons_neg _ hc

theorem pyStripL_cons_space {c : Char} (hc : isSpaceChar c = true) (l : List Char) :
    pyStripL (c :: l) = pyStripL l := by
  unfold pyStripL
  rw [List.dropWhile_cons, if_pos (by simp [hc])]

theorem pyStripL_ne_nil {c : Char} {t : List Char} (hc : isSpaceChar c = false) :
    pyStripL (c :: t) ≠ [] := by
  unfold pyStripL
  rw [dropWhile_cons_neg _ hc]
  intro h
  have h2 : (c :: t).reverse.dropWhile isSpaceChar = [] := by
    have := congrArg List.reverse h
    simpa using this
  have h3 := dropWhile_eq_nil_forall h2 c (by simp)
  rw [h3] at hc
  cases hc

theorem head_not_space_of_stripped {c : Char} {t : List Char}
    (h : pyStripL (c :: t) = c :: t) : isSpaceChar c = false :=
  head_pred_false_of_dropWhile_self (stripped_dropWhile h)

theorem takeWhile_digits_append {ds : List Char} (e : Char) (rest : List Char)
    (hds : ∀ c ∈ ds, c.isDigit = true) (he : e.isDigit = false) :
    (ds ++ e :: rest).takeWhile Char.isDigit = ds := by
  induction ds with
  | nil => simp [List.takeWhile_cons, he]
  | cons c t ih =>
    rw [List.cons_append, List.takeWhile_cons, if_pos (by simp [hds c (by simp)])]
    rw [ih (fun x hx => hds x (by simp [hx]))]

theorem mapRepl_eq_self {l : List Char} (h : ∀ c ∈ l, (c == '\r') = false) :
    l.map (fun c => if c == '\r' then '\n' else c) = l := by
  induction l with
  | nil => rfl
  | cons c t ih =>
    simp only [List.map_cons, h c (by simp), if_false]
    rw [ih (fun x hx => h x (by simp [hx]))]
    simp [h c (by simp)]

theorem splitOnNl_cons_ne {c : Char} (t : List Char) (hc : (c == '\n') = false) :
    splitOnNl (c :: t) =
      match splitOnNl t with
      | l :: ls => (c :: l) :: ls
      | [] => [[c]] := by
  simp only [splitOnNl, hc]
  rfl

theorem splitOnNl_noNl {a : List Char} (h : ∀ c ∈ a, (c == '\n') = false) :
    splitOnNl a = [a] := by
  induction a with
  | nil => rfl
  | cons c t ih =>
    rw [splitOnNl_cons_ne _ (h c (by simp)), ih (fun x hx => h x (by simp [hx]))]

theorem splitOnNl_append_nl {a : List Char} (b : List Char)
    (h : ∀ c ∈ a, (c == '\n') = false) :
    splitOnNl (a ++ '\n' :: b) = a :: splitOnNl b := by
  induction a with
  | nil => rfl
  | cons c t ih =>
    rw [List.cons_append, splitOnNl_cons_ne _ (h c (by simp)),
      ih (fun x hx => h x (by simp [hx]))]

theorem noSplitB_of_noNl {a : List Char} (h : ∀ c ∈ a, (c == '\n') = false) :
    noSplitB a = true := by
  induction a with
  | nil => rfl
  | cons c t ih =>
    simp only [noSplitB, h c (by simp)]
    simpa using ih (fun x hx => h x (by simp [hx]))

theorem noSplitB_append {a b : List Char} (ha : ∀ c ∈ a, (c == '\n') = false)
    (hb : noSplitB b = true) : noSplitB (a ++ b) = true := by
  induction a with
  | nil => simpa using hb
  | cons c t ih =>
    simp only [List.cons_append, noSplitB, ha c (by simp)]
    simpa using ih (fun x hx => ha x (by simp [hx]))

theorem matchNumDelim_eq_false_head {c : Char} (rest : List Char)
    (h : c.isDigit = false) : matchNumDelim (c :: rest) = false := by
  unfold matchNumDelim
  rw [List.takeWhile_cons, if_neg (by simp [h])]
  rfl

theorem lookQnum_eq_false_head {c : Char} (rest : List Char)
    (h1 : (c == 'Q') = false) (h2 : c.isDigit = false) :
    lookQnum (c :: rest) = false := by
  unfold lookQnum
  split
  · rename_i heq
    injection heq with heq1 heq2
    rw [heq1] at h1
    simp at h1
  · exact matchNumDelim_eq_false_head rest h2

theorem splitQScanF_noSplit {s : List Char} :
    ∀ (f : Nat) (acc : List Char), s.length ≤ f → noSplitB s = true →
      splitQScanF f acc s = [acc.reverse ++ s] := by
  induction s with
  | nil =>
    intro f acc hf hn
    rw [splitQScanF_empty]
    simp
  | cons c rest ih =>
    intro f acc hf hn
    simp only [List.length_cons] at hf
    obtain ⟨g, rfl⟩ : ∃ g, f = g + 1 := ⟨f - 1, by omega⟩
    simp only [noSplitB, Bool.and_eq_true] at hn
    by_cases hc : (c == '\n') = true
    · have hlook : lookQnum (rest.dropWhile isSpaceChar) = false := by
        have := hn.1
        rw [if_pos hc] at this
        simpa using this
      have hceq : c = '\n' := by simpa using hc
      subst hceq
      rw [splitQScanF_cons_nl_nosplit (g + 1) (by omega) _ _ hlook]
      simp only [Nat.add_sub_cancel]
      rw [ih g ('\n' :: acc) (by omega) hn.2]
      simp
    · rw [splitQScanF_cons_ne (g + 1) (by omega) _ _ _ (by simpa using hc)]
      simp only [Nat.add_sub_cancel]
      rw [ih g (c :: acc) (by omega) hn.2]
      simp

theorem serOptLines_nil_right (ls : List Char) : serOptLines ls [] = [] := by
  cases ls <;> rfl

theorem noSplitB_cons_nl (rest : List Char) :
    noSplitB ('\n' :: rest) =
      ((!(lookQnum (rest.dropWhile isSpaceChar))) && noSplitB rest) := by
  simp [noSplitB]

theorem serOptLines_cons (l : Char) (ls : List Char) (o : List Char)
    (os : List (List Char)) :
    serOptLines (l :: ls) (o :: os) =
      '\n' :: ((l :: ')' :: ' ' :: o) ++ serOptLines ls os) := by
  simp [serOptLines]

theorem noSplitB_serOpt (os : List (List Char)) :
    ∀ ls : List Char,
      (∀ l ∈ ls, (l == 'Q') = false ∧ l.isDigit = false ∧ (l == '\n') = false ∧
        isSpaceChar l = false) →
      (∀ o ∈ os, ∀ c ∈ o, (c == '\n') = false) →
      noSplitB (serOptLines ls os) = true := by
  induction os with
  | nil => intro ls _ _; rw [serOptLines_nil_right]; rfl
  | cons o os' ih =>
    intro ls hls hos
    cases ls with
    | nil => rfl
    | cons l ls' =>
      obtain ⟨hlQ, hld, hlnl, hlsp⟩ := hls l (by simp)
      rw [serOptLines_cons, noSplitB_cons_nl]
      have htail : noSplitB (o ++ serOptLines ls' os') = true :=
        noSplitB_append (hos o (by simp))
          (ih ls' (fun x hx => hls x (by simp [hx]))
            (fun x hx => hos x (by simp [hx])))
      have hrest : noSplitB ((l :: ')' :: ' ' :: o) ++ serOptLines ls' os') = true := by
        rw [show (l :: ')' :: ' ' :: o) ++ serOptLines ls' os' =
          [l, ')', ' '] ++ (o ++ serOptLines ls' os') by simp]
        apply noSplitB_append
        · intro x hx
          simp only [List.mem_cons, List.not_mem_nil, or_false] at hx
          rcases hx with rfl | rfl | rfl
          · exact hlnl
          · decide
          · decide
        · exact htail
      have hlook : lookQnum (((l :: ')' :: ' ' :: o) ++
          serOptLines ls' os').dropWhile isSpaceChar) = false := by
        rw [show (l :: ')' :: ' ' :: o) ++ serOptLines ls' os' =
          l :: (')' :: ' ' :: o ++ serOptLines ls' os') by simp]
        rw [dropWhile_cons_neg _ hlsp]
        exact lookQnum_eq_false_head _ hlQ hld
      rw [hlook, hrest]
      rfl

theorem serOpt_rev_stripped (os : List (List Char)) :
    ∀ ls : List Char, os ≠ [] → os.length ≤ ls.length →
      (∀ o ∈ os, pyStripL o = o ∧ o ≠ []) →
      (serOptLines ls os).reverse.dropWhile isSpaceChar = (serOptLines ls os).reverse ∧
        serOptLines ls os ≠ [] := by
  induction os with
  | nil => intro ls hne _ _; exact absurd rfl hne
  | cons o os' ih =>
    intro ls _ hlen hos
    cases ls with
    | nil => simp at hlen
    | cons l ls' =>
      obtain ⟨ho1, ho2⟩ := hos o (by simp)
      rw [serOptLines_cons]
      refine ⟨?_, by simp⟩
      cases os' with
      | nil =>
        rw [serOptLines_nil_right, List.append_nil]
        have hrev : ('\n' :: (l :: ')' :: ' ' :: o)).reverse =
            o.reverse ++ [' ', ')', l, '\n'] := by simp
        rw [hrev]
        exact dropWhile_append_of_stripped _ (stripped_rev_dropWhile ho1)
          (by simpa using ho2)
      | cons o2 os'' =>
        have hser' := ih ls' (by simp) (by simp at hlen ⊢; omega)
          (fun x hx => hos x (by simp [hx]))
        have hrev : ('\n' :: ((l :: ')' :: ' ' :: o) ++
            serOptLines ls' (o2 :: os''))).reverse =
            (serOptLines ls' (o2 :: os'')).reverse ++
              (o.reverse ++ [' ', ')', l, '\n']) := by simp
        rw [hrev]
        exact dropWhile_append_of_stripped _ hser'.1 (by simpa using hser'.2)

theorem mem_zipWith {α β γ : Type} (f : α → β → γ) :
    ∀ (as : List α) (bs : List β) (x : γ), x ∈ List.zipWith f as bs →
      ∃ a ∈ as, ∃ b ∈ bs, x = f a b := by
  intro as
  induction as with
  | nil => intro bs x hx; simp at hx
  | cons a as' ih =>
    intro bs x hx
    cases bs with
    | nil => simp at hx
    | cons b bs' =>
      simp only [List.zipWith_cons_cons, List.mem_cons] at hx
      rcases hx with rfl | hx
      · exact ⟨a, by simp, b, by simp, rfl⟩
      · obtain ⟨a', ha', b', hb', rfl⟩ := ih bs' x hx
        exact ⟨a', by simp [ha'], b', by simp [hb'], rfl⟩

theorem mem_serOpt {c : Char} (os : List (List Char)) :
    ∀ ls : List Char, c ∈ serOptLines ls os →
      c = '\n' ∨ c ∈ ls ∨ c = ')' ∨ c = ' ' ∨ ∃ o ∈ os, c ∈ o := by
  induction os with
  | nil =>
    intro ls hc
    rw [serOptLines_nil_right] at hc
    cases hc
  | cons o os' ih =>
    intro ls hc
    cases ls with
    | nil => cases hc
    | cons l ls' =>
      rw [serOptLines_cons] at hc
      simp only [List.mem_cons, List.mem_append] at hc
      rcases hc with rfl | (rfl | rfl | rfl | hco) | hser
      · exact Or.inl rfl
      · exact Or.inr (Or.inl (by simp))
      · exact Or.inr (Or.inr (Or.inl rfl))
      · exact Or.inr (Or.inr (Or.inr (Or.inl rfl)))
      · exact Or.inr (Or.inr (Or.inr (Or.inr ⟨o, by simp, hco⟩)))
      · rcases ih ls' hser with h | h | h | h | ⟨o2, ho2, hco⟩
        · exact Or.inl h
        · exact Or.inr (Or.inl (by simp [h]))
        · exact Or.inr (Or.inr (Or.inl h))
        · exact Or.inr (Or.inr (Or.inr (Or.inl h)))
        · exact Or.inr (Or.inr (Or.inr (Or.inr ⟨o2, by simp [ho2], hco⟩)))

theorem stripQ_cons_neg {c : Char} (t : List Char)
    (h : (c == 'Q' || c == 'q') = false) : stripQ (c :: t) = c :: t := by
  simp only [stripQ]
  rw [if_neg (by simp [h])]

theorem matchOptLine_serLine {l : Char} {o : List Char}
    (hl : isOptLabel l = true) (hsp : isSpaceChar l = false)
    (ho1 : pyStripL o = o) :
    matchOptLine (l :: ')' :: ' ' :: o) = some (l, o) := by
  simp [matchOptLine, dropWhile_cons_neg _ hsp, hl,
    show isSpaceChar ' ' = true from by decide,
    pyStripL_cons_space (show isSpaceChar ' ' = true from by decide) o, ho1]

theorem splitOnNl_serOpt (os : List (List Char)) :
    ∀ (ls : List Char) (a : List Char),
      (∀ c ∈ a, (c == '\n') = false) →
      (∀ o ∈ os, ∀ c ∈ o, (c == '\n') = false) →
      os.length ≤ ls.length →
      (∀ l ∈ ls, (l == '\n') = false) →
      splitOnNl (a ++ serOptLines ls os) =
        a :: List.zipWith (fun l o => l :: ')' :: ' ' :: o) ls os := by
  induction os with
  | nil =>
    intro ls a ha _ _ _
    rw [serOptLines_nil_right, List.append_nil, splitOnNl_noNl ha]
    simp
  | cons o os' ih =>
    intro ls a ha hos hlen hls
    cases ls with
    | nil => simp at hlen
    | cons l ls' =>
      rw [serOptLines_cons]
      have hline : ∀ c ∈ (l :: ')' :: ' ' :: o), (c == '\n') = false := by
        intro x hx
        simp only [List.mem_cons] at hx
        rcases hx with rfl | rfl | rfl | hx
        · exact hls _ (by simp)
        · decide
        · decide
        · exact hos o (by simp) x hx
      rw [splitOnNl_append_nl _ ha,
        ih ls' _ hline (fun x hx => hos x (by simp [hx]))
          (by simp only [List.length_cons] at hlen ⊢; omega)
          (fun x hx => hls x (by simp [hx]))]
      rfl

theorem collectOpts_serLines (os : List (List Char)) :
    ∀ (ls : List Char) (qt : List Char) (acc : List (Char × List Char)),
      (∀ l ∈ ls, isOptLabel l = true ∧ isSpaceChar l = false ∧ labelNorm l = l) →
      (∀ o ∈ os, pyStripL o = o) →
      os.length ≤ ls.length →
      collectOpts qt acc (List.zipWith (fun l o => l :: ')' :: ' ' :: o) ls os) =
        (qt, acc ++ List.zipWith (fun l o => (l, o)) ls os) := by
  induction os with
  | nil =>
    intro ls qt acc _ _ _
    simp [collectOpts]
  | cons o os' ih =>
    intro ls qt acc hls hos hlen
    cases ls with
    | nil => simp at hlen
    | cons l ls' =>
      obtain ⟨h1, h2, h3⟩ := hls l (by simp)
      simp only [List.zipWith_cons_cons, collectOpts,
        matchOptLine_serLine h1 h2 (hos o (by simp))]
      rw [h3]
      rw [ih ls' qt (acc ++ [(l, o)]) (fun x hx => hls x (by simp [hx]))
        (fun x hx => hos x (by simp [hx]))
        (by simp only [List.length_cons] at hlen ⊢; omega)]
      simp

theorem findOptSplit_cons_cons {p ln : List Char} (rest : List (List Char))
    (hp : matchOptLine p = none) (hln : (matchOptLine ln).isSome = true) :
    findOptSplit (p :: ln :: rest) = some ([p], ln :: rest) := by
  simp [findOptSplit, hp, hln]

theorem sortOpts_zip_ABCD (os : List (List Char)) (h : os.length ≤ 4) :
    (sortOpts (List.zipWith (fun l o => (l, o)) ['A', 'B', 'C', 'D'] os)).map
      (fun x => x.2) = os := by
  rcases os with _ | ⟨a, _ | ⟨b, _ | ⟨c, _ | ⟨d, _ | ⟨e, rest⟩⟩⟩⟩⟩
  · rfl
  · rfl
  · rfl
  · rfl
  · rfl
  · simp only [List.length_cons] at h
    omega

theorem matchQnumBody_append {ds : List Char} (X : List Char)
    (h1 : ds ≠ []) (h3 : ds.length ≤ 3) (hd : ∀ c ∈ ds, c.isDigit = true) :
    matchQnumBody (ds ++ ')' :: X) = some (ds, X.dropWhile isSpaceChar) := by
  simp only [matchQnumBody, takeWhile_digits_append ')' X hd (by decide)]
  rw [if_pos ⟨by
      cases ds with
      | nil => exact absurd rfl h1
      | cons a b => simp, h3⟩]
  rw [List.drop_left]
  simp

theorem parse_serializeQ_eq (qn p : List Char) (os : List (List Char))
    (hq1 : qn ≠ []) (hq2 : qn.length ≤ 3)
    (hq3 : ∀ c ∈ qn, c.isDigit = true)
    (hp1 : pyStripL p = p) (hp2 : p ≠ [])
    (hp3 : ∀ c ∈ p, (c == '\n') = false ∧ (c == '\r') = false)
    (hp4 : matchOptLine p = none)
    (hops : os.length ≤ 4)
    (ho : ∀ o ∈ os, pyStripL o = o ∧ o ≠ [] ∧
      ∀ c ∈ o, (c == '\n') = false ∧ (c == '\r') = false)
    (hfree : os = [] → (inlineFind p).length < 2) :
    parse_mcqs_from_column_text (serializeQ ⟨qn, p, os⟩) = [⟨qn, p, os⟩] := by
  obtain ⟨d0, qn', rfl⟩ : ∃ d0 qn', qn = d0 :: qn' := by
    cases qn with
    | nil => exact absurd rfl hq1
    | cons a b => exact ⟨a, b, rfl⟩
  have hqsp : ∀ c ∈ d0 :: qn', isSpaceChar c = false :=
    fun c hc => isSpaceChar_eq_false_of_isDigit (hq3 c hc)
  have hqnl : ∀ c ∈ d0 :: qn', (c == '\n') = false :=
    fun c hc => beq_nl_eq_false_of_not_space (hqsp c hc)
  have hqcr : ∀ c ∈ d0 :: qn', (c == '\r') = false :=
    fun c hc => beq_cr_eq_false_of_not_space (hqsp c hc)
  have hpnl : ∀ c ∈ p, (c == '\n') = false := fun c hc => (hp3 c hc).1
  have honl : ∀ o ∈ os, ∀ c ∈ o, (c == '\n') = false :=
    fun o hoo c hc => ((ho o hoo).2.2 c hc).1
  have hABCD : ∀ l ∈ (['A', 'B', 'C', 'D'] : List Char),
      (l == 'Q') = false ∧ l.isDigit = false ∧ (l == '\n') = false ∧
        isSpaceChar l = false := by decide
  have hlen4 : os.length ≤ (['A', 'B', 'C', 'D'] : List Char).length := by
    simpa using hops
  have hser_assoc : serializeQ ⟨d0 :: qn', p, os⟩ =
      ((d0 :: qn') ++ [')', ' '] ++ p) ++ serOptLines ['A', 'B', 'C', 'D'] os := by
    simp [serializeQ]
  have hser_cons : serializeQ ⟨d0 :: qn', p, os⟩ =
      d0 :: (qn' ++ ')' :: ' ' :: (p ++ serOptLines ['A', 'B', 'C', 'D'] os)) := rfl
  have hfront_noNl : ∀ c ∈ (d0 :: qn') ++ [')', ' '] ++ p, (c == '\n') = false := by
    intro c hc
    simp only [List.mem_append, List.mem_cons, List.not_mem_nil, or_false] at hc
    rcases hc with (hc | rfl | rfl) | hc
    · exact hqnl c (List.mem_cons.mpr hc)
    · decide
    · decide
    · exact hpnl c hc
  have hnosplit : noSplitB (serializeQ ⟨d0 :: qn', p, os⟩) = true := by
    rw [hser_assoc]
    exact noSplitB_append hfront_noNl (noSplitB_serOpt os _ hABCD honl)
  have hnoCR : ∀ c ∈ serializeQ ⟨d0 :: qn', p, os⟩, (c == '\r') = false := by
    rw [hser_assoc]
    intro c hc
    rw [List.mem_append] at hc
    rcases hc with hc | hc
    · simp only [List.mem_append, List.mem_cons, List.not_mem_nil, or_false] at hc
      rcases hc with (hc | rfl | rfl) | hc
      · exact hqcr c (List.mem_cons.mpr hc)
      · decide
      · decide
      · exact (hp3 c hc).2
    · rcases mem_serOpt os _ hc with rfl | hcl | rfl | rfl | ⟨o, hoo, hco⟩
      · decide
      · simp only [List.mem_cons, List.not_mem_nil, or_false] at hcl
        rcases hcl with rfl | rfl | rfl | rfl <;> decide
      · decide
      · decide
      · exact ((ho o hoo).2.2 c hco).2
  have hpd : p.dropWhile isSpaceChar = p := stripped_dropWhile hp1
  have hser_tail_rev :
      (p ++ serOptLines ['A', 'B', 'C', 'D'] os).reverse.dropWhile isSpaceChar =
        (p ++ serOptLines ['A', 'B', 'C', 'D'] os).reverse := by
    cases os with
    | nil =>
      rw [serOptLines_nil_right, List.append_nil]
      exact stripped_rev_dropWhile hp1
    | cons o os' =>
      have hs := serOpt_rev_stripped (o :: os') ['A', 'B', 'C', 'D'] (by simp) hlen4
        (fun x hx => ⟨(ho x hx).1, (ho x hx).2.1⟩)
      rw [List.reverse_append]
      exact dropWhile_append_of_stripped _ hs.1 (by simpa using hs.2)
  have hbody_strip : pyStripL (p ++ serOptLines ['A', 'B', 'C', 'D'] os) =
      p ++ serOptLines ['A', 'B', 'C', 'D'] os := by
    apply pyStripL_eq_self_of
    · exact dropWhile_append_of_stripped _ hpd hp2
    · exact hser_tail_rev
  have hstrip_ser : pyStripL (serializeQ ⟨d0 :: qn', p, os⟩) =
      serializeQ ⟨d0 :: qn', p, os⟩ := by
    apply pyStripL_eq_self_of
    · rw [hser_cons]
      exact dropWhile_cons_neg _ (hqsp d0 (by simp))
    · rw [show serializeQ ⟨d0 :: qn', p, os⟩ =
        ((d0 :: qn') ++ [')', ' ']) ++ (p ++ serOptLines ['A', 'B', 'C', 'D'] os) from
          by simp [serializeQ]]
      rw [List.reverse_append]
      apply dropWhile_append_of_stripped _ hser_tail_rev
      simp [hp2]
  have hstripQ : stripQ (serializeQ ⟨d0 :: qn', p, os⟩) =
      serializeQ ⟨d0 :: qn', p, os⟩ := by
    rw [hser_cons]
    apply stripQ_cons_neg
    have h1 := beq_Qq_eq_false_of_isDigit (hq3 d0 (by simp))
    simp [h1.1, h1.2]
  have hmqb : matchQnumBody (serializeQ ⟨d0 :: qn', p, os⟩) =
      some (d0 :: qn', p ++ serOptLines ['A', 'B', 'C', 'D'] os) := by
    rw [show serializeQ ⟨d0 :: qn', p, os⟩ = (d0 :: qn') ++ ')' ::
      (' ' :: (p ++ serOptLines ['A', 'B', 'C', 'D'] os)) from rfl]
    rw [matchQnumBody_append _ hq1 hq2 hq3]
    rw [List.dropWhile_cons, if_pos (by decide)]
    rw [dropWhile_append_of_stripped _ hpd hp2]
  have hpb : parseBody (p ++ serOptLines ['A', 'B', 'C', 'D'] os) =
      (p, List.zipWith (fun l o => (l, o)) ['A', 'B', 'C', 'D'] os) := by
    cases os with
    | nil =>
      rw [serOptLines_nil_right, List.append_nil]
      have hlines : linesOf p = [p] := by
        unfold linesOf
        rw [splitOnNl_noNl hpnl]
        simp only [List.filter, hp1]
        rw [show (!p.isEmpty) = true from by
          cases p with
          | nil => exact absurd rfl hp2
          | cons a b => rfl]
      have hfos0 : findOptSplit (linesOf p) = none := by
        rw [hlines]
        simp [findOptSplit, hp4]
      simp only [parseBody, hfos0, inlineBranch]
      rw [if_neg (by have := hfree rfl; omega)]
      rfl
    | cons o os' =>
      have hlines : linesOf (p ++ serOptLines ['A', 'B', 'C', 'D'] (o :: os')) =
          p :: List.zipWith (fun l o => l :: ')' :: ' ' :: o)
            ['A', 'B', 'C', 'D'] (o :: os') := by
        unfold linesOf
        rw [splitOnNl_serOpt (o :: os') _ p hpnl honl hlen4 (by decide)]
        apply List.filter_eq_self.mpr
        intro x hx
        rcases List.mem_cons.mp hx with rfl | hx
        · rw [hp1]
          cases x with
          | nil => exact absurd rfl hp2
          | cons a b => rfl
        · obtain ⟨l, hl, o2, ho2, rfl⟩ := mem_zipWith _ _ _ _ hx
          have hlsp : isSpaceChar l = false := by
            simp only [List.mem_cons, List.not_mem_nil, or_false] at hl
            rcases hl with rfl | rfl | rfl | rfl <;> decide
          have := pyStripL_ne_nil (t := ')' :: ' ' :: o2) hlsp
          cases hres : pyStripL (l :: ')' :: ' ' :: o2) with
          | nil => exact absurd hres this
          | cons a b => rfl
      have hln1 : (matchOptLine ('A' :: ')' :: ' ' :: o)).isSome = true := by
        rw [matchOptLine_serLine (by decide) (by decide) (ho o (by simp)).1]
        rfl
      have hfos : findOptSplit (linesOf (p ++
          serOptLines ['A', 'B', 'C', 'D'] (o :: os'))) =
          some ([p], List.zipWith (fun l o => l :: ')' :: ' ' :: o)
            ['A', 'B', 'C', 'D'] (o :: os')) := by
        rw [hlines]
        rw [show List.zipWith (fun l o => l :: ')' :: ' ' :: o)
            ['A', 'B', 'C', 'D'] (o :: os') =
          ('A' :: ')' :: ' ' :: o) :: List.zipWith (fun l o => l :: ')' :: ' ' :: o)
            ['B', 'C', 'D'] os' from rfl]
        exact findOptSplit_cons_cons _ hp4 hln1
      simp only [parseBody, hfos]
      rw [show joinSpace [p] = p from rfl, hp1]
      rw [collectOpts_serLines (o :: os') ['A', 'B', 'C', 'D'] p []
        (by decide) (fun x hx => (ho x hx).1) hlen4]
      rfl
  have hne : (serializeQ ⟨d0 :: qn', p, os⟩).isEmpty = false := by
    rw [hser_cons]
    rfl
  have hpp : parsePart (serializeQ ⟨d0 :: qn', p, os⟩) = some ⟨d0 :: qn', p, os⟩ := by
    simp only [parsePart, hstrip_ser, hne, Bool.false_eq_true, if_false, hstripQ, hmqb,
      hbody_strip, hpb]
    rw [sortOpts_zip_ABCD os hops]
  simp only [parse_mcqs_from_column_text, hne, Bool.false_eq_true, if_false]
  rw [mapRepl_eq_self hnoCR]
  simp only [splitQuestions]
  rw [splitQScanF_noSplit (serializeQ ⟨d0 :: qn', p, os⟩).length [] (le_refl _) hnosplit]
  simp [List.filterMap, hpp]

/-- Counterexample to claim C9 as stated: the block below parses to a
record with options `["x", ""]`; re-serialising that record and re-parsing
yields a record with the single option `"x B)"`, because the empty final
option line loses its trailing whitespace under stripping and is glued to
the previous option. -/
theorem C9_counterexample :
    parse_mcqs_from_column_text ("1) q\nD. \nA. x").toList =
      [⟨['1'], ['q'], [['x'], []]⟩] ∧
    parse_mcqs_from_column_text (serializeQ ⟨['1'], ['q'], [['x'], []]⟩) =
      [⟨['1'], ['q'], [("x B)").toList]⟩] ∧
    ¬ (parse_mcqs_from_column_text (serializeQ ⟨['1'], ['q'], [['x'], []]⟩)).map
        (fun r => r.options) = [[['x'], []]] := by
  exact ⟨by decide, by decide, by decide⟩

/-- Claim C9, amended: re-parsing the re-serialisation of a question
record reproduces the record exactly, provided the question number is a
1-3 digit number, the prompt is non-empty, stripped, free of line breaks
and does not itself match the option-start pattern, there are at most 4
options, each non-empty, stripped and free of line breaks, and (for a
record without options) the prompt does not contain two inline option
markers. -/
theorem C9_amended (r : QuestionRec)
    (hq1 : r.qnum ≠ []) (hq2 : r.qnum.length ≤ 3)
    (hq3 : ∀ c ∈ r.qnum, c.isDigit = true)
    (hp1 : pyStripL r.question = r.question) (hp2 : r.question ≠ [])
    (hp3 : ∀ c ∈ r.question, (c == '\n') = false ∧ (c == '\r') = false)
    (hp4 : matchOptLine r.question = none)
    (hops : r.options.length ≤ 4)
    (ho : ∀ o ∈ r.options, pyStripL o = o ∧ o ≠ [] ∧
      ∀ c ∈ o, (c == '\n') = false ∧ (c == '\r') = false)
    (hfree : r.options = [] → (inlineFind r.question).length < 2) :
    parse_mcqs_from_column_text (serializeQ r) = [r] := by
  obtain ⟨qn, p, os⟩ := r
  exact parse_serializeQ_eq qn p os hq1 hq2 hq3 hp1 hp2 hp3 hp4 hops ho hfree

/-- Witness for C9 at a concrete record with two options. -/
theorem C9_amended_witness :
    parse_mcqs_from_column_text (serializeQ ⟨['7'], ("what").toList,
      [['x'], ['y']]⟩) = [⟨['7'], ("what").toList, [['x'], ['y']]⟩] :=
  C9_amended ⟨['7'], ("what").toList, [['x'], ['y']]⟩ (by decide) (by decide)
    (by decide) (by decide) (by decide) (by decide) (by decide) (by decide)
    (by decide) (by decide)

end MockExam
